import Mathlib

/-!
Verification of the color-quantization core of the repository
(`src/color_reducer.py`), shallowly embedded in Lean 4.

The image loaded by `plt.imread` is modelled as a grid of 3-channel
integer pixels (`List (List Pixel)` with `Pixel` a triple of naturals):
the median-cut code of the repository only executes on an integer-dtype
image (the flattened working array stores the row/column coordinates in
the same numpy array as the colors, and a float-dtype array would make
`img[data[3]]` an invalid float index), and numpy assignment of the
float channel means into the integer-dtype buffer truncates toward
zero, which for the nonnegative values at hand is the floor, i.e.
natural-number division of the channel sum by the bucket size.
-/

/-- A 3-channel color value of one image cell. -/
structure Pixel where
  r : ℕ
  g : ℕ
  b : ℕ
deriving DecidableEq, Repr

/-- An image: rows of pixels (the H×W×3 numpy array `self.image`). -/
abbrev ImageG := List (List Pixel)

/-- One row of `flattened_img_array`: `[color[0], color[1], color[2], rindex, cindex]`. -/
structure PixelRecord where
  c0 : ℕ
  c1 : ℕ
  c2 : ℕ
  row : ℕ
  col : ℕ
deriving DecidableEq, Repr

/-- Channel access `record[ch]` for `ch` in 0, 1, 2 (the only indices the source uses). -/
def PixelRecord.chan (rec : PixelRecord) : ℕ → ℕ
  | 0 => rec.c0
  | 1 => rec.c1
  | _ => rec.c2

/-- The coordinate part `(rindex, cindex)` of a record. -/
def PixelRecord.coord (rec : PixelRecord) : ℕ × ℕ := (rec.row, rec.col)

/-- Read of `img[i][j]` as an optional value. -/
def getPixel (img : ImageG) (i j : ℕ) : Option Pixel :=
  img[i]?.bind (fun row => row[j]?)

/-- Write `img[i][j] = p`: in-place store, a no-op when out of bounds
(records always carry in-bounds coordinates). -/
def setPixel (img : ImageG) (i j : ℕ) (p : Pixel) : ImageG :=
  img.set i ((img.getD i []).set j p)

/-- Inner loop of the flattening: `for cindex, color in enumerate(rows)`,
emitting `[color[0], color[1], color[2], rindex, cindex]`. -/
def flattenRow (ri : ℕ) : ℕ → List Pixel → List PixelRecord
  | _, [] => []
  | ci, p :: ps => ⟨p.r, p.g, p.b, ri, ci⟩ :: flattenRow ri (ci + 1) ps

/-- Outer loop of the flattening: `for rindex, rows in enumerate(sample_img)`. -/
def flattenRows : ℕ → List (List Pixel) → List PixelRecord
  | _, [] => []
  | ri, row :: rest => flattenRow ri 0 row ++ flattenRows (ri + 1) rest

/-- The array `flattened_img_array`: one record per cell, row-major. -/
def flattenImage (img : ImageG) : List PixelRecord := flattenRows 0 img

/-- Range `np.max(img_arr[:, ch]) - np.min(img_arr[:, ch])` (0 on the empty
list, which the algorithm never queries). -/
def chanRange (arr : List PixelRecord) (ch : ℕ) : ℕ :=
  match arr.map (fun rec => rec.chan ch) with
  | [] => 0
  | x :: xs => xs.foldl max x - xs.foldl min x

/-- Selection `np.argmax([r_range, g_range, b_range])`: index of the first maximum. -/
def argmax3 (a b c : ℕ) : ℕ :=
  if b ≤ a ∧ c ≤ a then 0 else if c ≤ b then 1 else 2

/-- Stable insertion of a record into a list sorted ascending on channel `ch`:
the inserted record goes after all records with a `≤` channel value. -/
def insertByChan (ch : ℕ) (x : PixelRecord) : List PixelRecord → List PixelRecord
  | [] => [x]
  | y :: ys =>
    if x.chan ch ≤ y.chan ch then x :: y :: ys else y :: insertByChan ch x ys

/-- Sort of the bucket by the selected channel, ascending.  (The source calls
`img_arr[:, ch].argsort()`; equal keys are kept in their original relative
order here — see the notes on the default sort kind of the source
in the C3 analysis.) -/
def sortByChan (ch : ℕ) : List PixelRecord → List PixelRecord
  | [] => []
  | x :: xs => insertByChan ch x (sortByChan ch xs)

/-- The bucket sorted by the channel with the highest range
(first maximum wins ties, as `np.argmax` does). -/
def sortedByMaxRange (arr : List PixelRecord) : List PixelRecord :=
  sortByChan (argmax3 (chanRange arr 0) (chanRange arr 1) (chanRange arr 2)) arr

/-- The per-channel bucket average written back by `_median_cut_quantize_helper`:
`np.mean` of the channel followed by the truncating numpy store into the
integer-dtype buffer, i.e. floor of the channel sum over the bucket size. -/
def avgPixel (arr : List PixelRecord) : Pixel :=
  ⟨(arr.map (fun rec => rec.c0)).sum / arr.length,
   (arr.map (fun rec => rec.c1)).sum / arr.length,
   (arr.map (fun rec => rec.c2)).sum / arr.length⟩

/-- The write-back loop `for data in img_arr: img[data[3]][data[4]] = [...]`,
storing one fixed pixel value at every coordinate recorded in `recs`. -/
def writeAll (recs : List PixelRecord) (p : Pixel) (img : ImageG) : ImageG :=
  recs.foldl (fun im rec => setPixel im rec.row rec.col p) img

/-- Leaf step `_median_cut_quantize_helper(img, img_arr)`: write the bucket
average to every coordinate recorded in the bucket. -/
def medianCutQuantizeHelper (img : ImageG) (arr : List PixelRecord) : ImageG :=
  writeAll arr (avgPixel arr) img

/-- Recursion `_split_into_buckets(img, img_arr, depth)`: empty bucket returns, depth 0
averages, otherwise sort by the widest channel and recurse on the two halves
split at `len // 2`. -/
def splitIntoBuckets : ℕ → List PixelRecord → ImageG → ImageG
  | _, [], img => img
  | 0, x :: xs, img => medianCutQuantizeHelper img (x :: xs)
  | depth + 1, x :: xs, img =>
    let sorted := sortedByMaxRange (x :: xs)
    let m := sorted.length / 2
    splitIntoBuckets depth (sorted.drop m) (splitIntoBuckets depth (sorted.take m) img)

/-- Entry point `_median_cut_quantize(depth)`: copy the image, flatten it
with coordinates, run the bucket recursion on the copy and return it. -/
def medianCutQuantize (img : ImageG) (depth : ℕ) : ImageG :=
  splitIntoBuckets depth (flattenImage img) img

/-- The Python exceptions the facade can surface, plus the
`InvalidArgumentError` of the spec (which the source never raises). -/
inductive PyError where
  /-- The invalid-method ValueError, carrying the valid method names it lists. -/
  | valueErrorInvalidMethod (validMethods : List String)
  /-- The OverflowError escaping from `int(np.log2(0))` (`log2 0 = -inf`). -/
  | overflowError
  /-- The ValueError escaping from `int(np.log2(n))`, `n < 0` (`log2 n = NaN`). -/
  | valueErrorNanToInt
  /-- The dedicated invalid-argument error of the spec; no code path produces it. -/
  | invalidArgumentError
deriving DecidableEq, Repr

/-- Conversion `int(np.log2(n_colors))`: floor of the base-2 logarithm for positive
inputs; `log2 0 = -inf` overflows the int conversion and `log2` of a
negative is NaN, which the int conversion rejects. -/
def intLog2 (n : ℤ) : Except PyError ℕ :=
  if n = 0 then .error .overflowError
  else if n < 0 then .error .valueErrorNanToInt
  else .ok (Nat.log2 n.toNat)

/-- What one `aggregate_colors` call does, as seen at the facade. -/
inductive AggOutcome where
  /-- The kmeans branch: delegates to `_kmeans_clustering(n_colors)`
  (an external `sklearn` computation, modelled separately). -/
  | delegatesToKMeans (n_colors : ℤ)
  /-- The median-cut branch returned this quantized image. -/
  | quantized (img : ImageG)
  /-- The call raised this exception. -/
  | raises (e : PyError)
deriving DecidableEq, Repr

/-- Facade `aggregate_colors(method, n_colors)`: dispatch on the method name;
unknown names raise a ValueError naming the valid set. -/
def aggregate_colors (img : ImageG) (method : String) (n_colors : ℤ) : AggOutcome :=
  if method = "kmeans" then .delegatesToKMeans n_colors
  else if method = "median_cut" then
    match intLog2 n_colors with
    | .error e => .raises e
    | .ok d => .quantized (medianCutQuantize img d)
  else .raises (.valueErrorInvalidMethod ["kmeans", "median_cut"])

/-- The kmeans branch `_kmeans_clustering(n_colors)`: the `KMeans` fit is
an external `sklearn` capability, abstracted here as the label assignment
`labels` and the centroid table `centers` it returns; the loop
`clustered_image[labels == i] = centers[i]` for `i < n_clusters` maps every
position to its centroid (positions with an out-of-range label keep the
`zeros_like` initialization), and the result is reshaped back to `(h, w, 3)`. -/
def kmeansClustering (labels : ℕ → ℕ) (centers : ℕ → Pixel) (nClusters : ℕ)
    (img : ImageG) : ImageG :=
  let h := img.length
  let w := (img.headD []).length
  let reshaped := img.flatten
  let clustered := (List.range reshaped.length).map (fun idx =>
    if labels idx < nClusters then centers (labels idx) else ⟨0, 0, 0⟩)
  (List.range h).map (fun i => (clustered.drop (i * w)).take w)

/-- The shape `(H, W)` of an image, as the list of its row lengths. -/
def shapeOf (img : ImageG) : List ℕ := img.map List.length

/-- Number of distinct colors appearing in an image. -/
def distinctColorCount (img : ImageG) : ℕ := img.flatten.dedup.length

/-- The leaf buckets of the median-cut recursion: the buckets on which
`_median_cut_quantize_helper` is eventually run. -/
def leafBuckets : ℕ → List PixelRecord → List (List PixelRecord)
  | _, [] => []
  | 0, x :: xs => [x :: xs]
  | depth + 1, x :: xs =>
    let sorted := sortedByMaxRange (x :: xs)
    let m := sorted.length / 2
    leafBuckets depth (sorted.take m) ++ leafBuckets depth (sorted.drop m)

/-- One splitting step of `_split_into_buckets` on a live bucket: an empty
bucket dies childless, a nonempty one is sorted by its widest channel and cut
at `len // 2`. -/
def splitOnce (arr : List PixelRecord) : List (List PixelRecord) :=
  match arr with
  | [] => [[]]
  | x :: xs =>
    let sorted := sortedByMaxRange (x :: xs)
    let m := sorted.length / 2
    [sorted.take m, sorted.drop m]

/-- The live buckets after `k` levels of the recursion started at `depth`
(buckets stop splitting once the depth is exhausted). -/
def levelBuckets (depth : ℕ) (arr : List PixelRecord) : ℕ → List (List PixelRecord)
  | 0 => [arr]
  | k + 1 =>
    if k < depth then ((levelBuckets depth arr k).map splitOnce).flatten
    else levelBuckets depth arr k

/-- The exact per-channel bucket mean demanded by the spec
(`np.mean` before any dtype conversion), as a rational number. -/
def specExactChannelMean (arr : List PixelRecord) (ch : ℕ) : ℚ :=
  ((((arr.map (fun rec => rec.chan ch)).sum : ℕ) : ℚ)) / arr.length

/-! ### Permutation facts about the stable sort -/

theorem insertByChan_perm (ch : ℕ) (x : PixelRecord) (l : List PixelRecord) :
    (insertByChan ch x l).Perm (x :: l) := by
  induction l with
  | nil => simp [insertByChan]
  | cons y ys ih =>
    by_cases h : x.chan ch ≤ y.chan ch
    · simp [insertByChan, h]
    · simp only [insertByChan, if_neg h]
      exact ((ih.cons y).trans (List.Perm.swap x y ys))

theorem sortByChan_perm (ch : ℕ) (l : List PixelRecord) :
    (sortByChan ch l).Perm l := by
  induction l with
  | nil => exact List.Perm.refl _
  | cons x xs ih => exact (insertByChan_perm ch x (sortByChan ch xs)).trans (ih.cons x)

theorem sortedByMaxRange_perm (arr : List PixelRecord) :
    (sortedByMaxRange arr).Perm arr := sortByChan_perm _ arr

theorem sortedByMaxRange_length (arr : List PixelRecord) :
    (sortedByMaxRange arr).length = arr.length :=
  (sortedByMaxRange_perm arr).length_eq

/-! ### Coordinates of the flattened working set -/

theorem flattenRow_map_coord (ri : ℕ) : ∀ (ci : ℕ) (ps : List Pixel),
    (flattenRow ri ci ps).map PixelRecord.coord
      = (List.range' ci ps.length).map (fun c => (ri, c))
  | _, [] => rfl
  | ci, p :: ps => by
    simp only [flattenRow, List.map_cons, List.length_cons, List.range'_succ]
    exact congrArg _ (flattenRow_map_coord ri (ci + 1) ps)

theorem flattenRow_length (ri ci : ℕ) (ps : List Pixel) :
    (flattenRow ri ci ps).length = ps.length := by
  have h := congrArg List.length (flattenRow_map_coord ri ci ps)
  simpa using h

theorem flattenRows_map_coord_row {ri : ℕ} {rows : List (List Pixel)}
    {pr : ℕ × ℕ} (h : pr ∈ (flattenRows ri rows).map PixelRecord.coord) :
    ri ≤ pr.1 := by
  induction rows generalizing ri with
  | nil => simp [flattenRows] at h
  | cons row rest ih =>
    simp only [flattenRows, List.map_append, List.mem_append] at h
    rcases h with h | h
    · rw [flattenRow_map_coord] at h
      rcases List.mem_map.mp h with ⟨c, _, rfl⟩
      exact le_refl _
    · exact le_trans (Nat.le_succ ri) (ih h)

theorem flattenRows_coord_nodup (ri : ℕ) (rows : List (List Pixel)) :
    ((flattenRows ri rows).map PixelRecord.coord).Nodup := by
  induction rows generalizing ri with
  | nil => simp [flattenRows]
  | cons row rest ih =>
    simp only [flattenRows, List.map_append]
    refine List.Nodup.append ?_ (ih (ri + 1)) ?_
    · rw [flattenRow_map_coord]
      refine List.Nodup.map ?_ (List.nodup_range' _ _)
      intro a b hab
      exact congrArg Prod.snd hab
    · intro pr h1 h2
      rw [flattenRow_map_coord] at h1
      rcases List.mem_map.mp h1 with ⟨c, _, rfl⟩
      have h3 := flattenRows_map_coord_row h2
      simp at h3

theorem flattenImage_coord_nodup (img : ImageG) :
    ((flattenImage img).map PixelRecord.coord).Nodup :=
  flattenRows_coord_nodup 0 img

theorem flattenImage_length (img : ImageG) :
    (flattenImage img).length = (img.map List.length).sum := by
  suffices h : ∀ ri rows, (flattenRows ri rows).length = (List.map List.length rows).sum by
    exact h 0 img
  intro ri rows
  induction rows generalizing ri with
  | nil => rfl
  | cons row rest ih =>
    simp [flattenRows, List.length_append, flattenRow_length, ih]


/-! ### Reading and writing single pixels -/

theorem getElem?_isSome_iff_lt {α : Type _} (l : List α) (i : ℕ) :
    l[i]?.isSome ↔ i < l.length := by
  by_cases h : i < l.length
  · rw [List.getElem?_eq_getElem h]
    simp [h]
  · rw [List.getElem?_eq_none (Nat.le_of_not_lt h)]
    simp [h]

theorem set_getElem?_eq_self {α : Type _} {l : List α} {i : ℕ} {a : α}
    (h : l[i]? = some a) : l.set i a = l := by
  apply List.ext_getElem?
  intro n
  rw [List.getElem?_set]
  by_cases hn : i = n
  · subst hn
    rcases List.getElem?_eq_some_iff.mp h with ⟨hlt, _⟩
    rw [if_pos rfl, if_pos hlt, h]
  · rw [if_neg hn]

theorem getPixel_setPixel_ne {img : ImageG} {i j i' j' : ℕ} {p : Pixel}
    (h : (i', j') ≠ (i, j)) :
    getPixel (setPixel img i j p) i' j' = getPixel img i' j' := by
  unfold getPixel setPixel
  by_cases hi : i' = i
  · subst hi
    have hj : j' ≠ j := fun hj => h (by rw [hj])
    by_cases hlt : i' < img.length
    · rw [List.getElem?_set_self hlt, List.getElem?_eq_getElem hlt]
      have hgd : img.getD i' [] = img[i'] := by
        rw [List.getD_eq_getElem?_getD, List.getElem?_eq_getElem hlt]
        rfl
      simp only [Option.some_bind, hgd]
      rw [List.getElem?_set_ne (fun hx => hj hx.symm)]
    · rw [List.set_eq_of_length_le (Nat.le_of_not_lt hlt)]
  · rw [List.getElem?_set_ne (fun hx => hi hx.symm)]

theorem getPixel_setPixel_self {img : ImageG} {i j : ℕ} {p : Pixel} :
    getPixel (setPixel img i j p) i j = (getPixel img i j).map (fun _ => p) := by
  unfold getPixel setPixel
  by_cases hlt : i < img.length
  · rw [List.getElem?_set_self hlt, List.getElem?_eq_getElem hlt]
    have hgd : img.getD i [] = img[i] := by
      rw [List.getD_eq_getElem?_getD, List.getElem?_eq_getElem hlt]
      rfl
    simp only [Option.some_bind, hgd]
    rw [List.getElem?_set]
    by_cases hj : j < img[i].length
    · rw [if_pos rfl, if_pos hj, List.getElem?_eq_getElem hj]
      rfl
    · rw [if_pos rfl, if_neg hj, List.getElem?_eq_none (Nat.le_of_not_lt hj)]
      rfl
  · rw [List.set_eq_of_length_le (Nat.le_of_not_lt hlt),
      List.getElem?_eq_none (Nat.le_of_not_lt hlt)]
    rfl

theorem length_setPixel (img : ImageG) (i j : ℕ) (p : Pixel) :
    (setPixel img i j p).length = img.length := List.length_set ..

theorem shape_setPixel (img : ImageG) (i j : ℕ) (p : Pixel) :
    shapeOf (setPixel img i j p) = shapeOf img := by
  unfold shapeOf setPixel
  rw [List.map_set]
  have hlen : ((img.getD i []).set j p).length = (img.getD i []).length :=
    List.length_set ..
  rw [hlen]
  by_cases hlt : i < img.length
  · apply set_getElem?_eq_self
    rw [List.getElem?_map, List.getElem?_eq_getElem hlt]
    have hgd : img.getD i [] = img[i] := by
      rw [List.getD_eq_getElem?_getD, List.getElem?_eq_getElem hlt]
      rfl
    rw [hgd]
    rfl
  · exact List.set_eq_of_length_le (by simpa using Nat.le_of_not_lt hlt)

/-! ### The write-back loop -/

theorem getPixel_writeAll_not_mem {recs : List PixelRecord} {p : Pixel}
    {i j : ℕ} (h : (i, j) ∉ recs.map PixelRecord.coord) :
    ∀ img, getPixel (writeAll recs p img) i j = getPixel img i j := by
  induction recs with
  | nil => intro img; rfl
  | cons rec rest ih =>
    intro img
    simp only [List.map_cons, List.mem_cons, not_or] at h
    have step : getPixel (setPixel img rec.row rec.col p) i j = getPixel img i j :=
      getPixel_setPixel_ne h.1
    calc getPixel (writeAll rest p (setPixel img rec.row rec.col p)) i j
        = getPixel (setPixel img rec.row rec.col p) i j := ih h.2 _
      _ = getPixel img i j := step

theorem getPixel_writeAll_mem {recs : List PixelRecord} {p : Pixel}
    {i j : ℕ} (h : (i, j) ∈ recs.map PixelRecord.coord) :
    ∀ img, getPixel (writeAll recs p img) i j = (getPixel img i j).map (fun _ => p) := by
  induction recs with
  | nil => simp at h
  | cons rec rest ih =>
    intro img
    by_cases hrest : (i, j) ∈ rest.map PixelRecord.coord
    · have := ih hrest (setPixel img rec.row rec.col p)
      rw [show writeAll (rec :: rest) p img
            = writeAll rest p (setPixel img rec.row rec.col p) from rfl, this]
      by_cases hc : (i, j) = (rec.row, rec.col)
      · have hc' : rec.row = i ∧ rec.col = j := by
          rcases Prod.mk.injEq .. ▸ hc with ⟨h1, h2⟩
          exact ⟨h1.symm, h2.symm⟩
        rw [hc'.1, hc'.2] at *
        rw [getPixel_setPixel_self, Option.map_map]
        rfl
      · rw [getPixel_setPixel_ne hc]
    · have hc : (i, j) = (rec.row, rec.col) := by
        simp only [List.map_cons, List.mem_cons] at h
        rcases h with h | h
        · exact h
        · exact absurd h hrest
      rw [show writeAll (rec :: rest) p img
            = writeAll rest p (setPixel img rec.row rec.col p) from rfl,
        getPixel_writeAll_not_mem hrest]
      rcases Prod.mk.injEq .. ▸ hc with ⟨h1, h2⟩
      rw [← h1, ← h2, getPixel_setPixel_self]

theorem shape_writeAll (recs : List PixelRecord) (p : Pixel) :
    ∀ img, shapeOf (writeAll recs p img) = shapeOf img := by
  induction recs with
  | nil => intro img; rfl
  | cons rec rest ih =>
    intro img
    calc shapeOf (writeAll rest p (setPixel img rec.row rec.col p))
        = shapeOf (setPixel img rec.row rec.col p) := ih _
      _ = shapeOf img := shape_setPixel ..

/-! ### Coverage: every in-bounds coordinate appears in the flattened set -/

theorem flattenRow_coord_mem {ps : List Pixel} {j : ℕ} (ri ci : ℕ)
    (h : j < ps.length) :
    (ri, ci + j) ∈ (flattenRow ri ci ps).map PixelRecord.coord := by
  rw [flattenRow_map_coord]
  exact List.mem_map.mpr ⟨ci + j, List.mem_range'_1.mpr ⟨Nat.le_add_right .., by omega⟩, rfl⟩

theorem flattenRows_coord_mem {rows : List (List Pixel)} {row : List Pixel}
    {i j : ℕ} {p : Pixel} :
    ∀ ri, rows[i]? = some row → row[j]? = some p →
      (ri + i, j) ∈ (flattenRows ri rows).map PixelRecord.coord := by
  induction rows generalizing i with
  | nil => intro ri h; simp at h
  | cons row0 rest ih =>
    intro ri hrow hp
    simp only [flattenRows, List.map_append, List.mem_append]
    match i, hrow with
    | 0, hrow =>
      left
      have hr0 : row0 = row := by
        simpa using hrow
      subst hr0
      have hj : j < row0.length := by
        rcases List.getElem?_eq_some_iff.mp hp with ⟨hlt, _⟩
        exact hlt
      have : (ri, 0 + j) ∈ (flattenRow ri 0 row0).map PixelRecord.coord :=
        flattenRow_coord_mem ri 0 hj
      simpa using this
    | i' + 1, hrow =>
      right
      have hrow' : rest[i']? = some row := by
        simpa using hrow
      have := ih (ri + 1) hrow' hp
      have harith : ri + 1 + i' = ri + (i' + 1) := by omega
      rw [harith] at this
      exact this

theorem getPixel_coord_mem_flatten {img : ImageG} {i j : ℕ} {p : Pixel}
    (h : getPixel img i j = some p) :
    (i, j) ∈ (flattenImage img).map PixelRecord.coord := by
  unfold getPixel at h
  rcases Option.bind_eq_some.mp h with ⟨row, hrow, hp⟩
  have := flattenRows_coord_mem 0 hrow hp
  simpa using this

/-! ### Shape preservation through the recursion -/

theorem shape_splitIntoBuckets :
    ∀ (depth : ℕ) (arr : List PixelRecord) (img : ImageG),
      shapeOf (splitIntoBuckets depth arr img) = shapeOf img := by
  intro depth
  induction depth with
  | zero =>
    intro arr img
    cases arr with
    | nil => rfl
    | cons x xs => exact shape_writeAll ..
  | succ d ih =>
    intro arr img
    cases arr with
    | nil => rfl
    | cons x xs =>
      show shapeOf (splitIntoBuckets d _ (splitIntoBuckets d _ img)) = shapeOf img
      rw [ih, ih]

theorem shape_medianCutQuantize (img : ImageG) (depth : ℕ) :
    shapeOf (medianCutQuantize img depth) = shapeOf img :=
  shape_splitIntoBuckets ..

/-! ### The leaf buckets of the recursion -/

theorem leafBuckets_length_le :
    ∀ (depth : ℕ) (arr : List PixelRecord), (leafBuckets depth arr).length ≤ 2 ^ depth := by
  intro depth
  induction depth with
  | zero =>
    intro arr
    cases arr <;> simp [leafBuckets]
  | succ d ih =>
    intro arr
    cases arr with
    | nil => simp [leafBuckets]
    | cons x xs =>
      show (leafBuckets d _ ++ leafBuckets d _).length ≤ 2 ^ (d + 1)
      rw [List.length_append, pow_succ]
      calc (leafBuckets d ((sortedByMaxRange (x :: xs)).take
              ((sortedByMaxRange (x :: xs)).length / 2))).length
            + (leafBuckets d ((sortedByMaxRange (x :: xs)).drop
              ((sortedByMaxRange (x :: xs)).length / 2))).length
          ≤ 2 ^ d + 2 ^ d := Nat.add_le_add (ih _) (ih _)
        _ = 2 ^ d * 2 := by omega

theorem leafBuckets_flatten_perm :
    ∀ (depth : ℕ) (arr : List PixelRecord), (leafBuckets depth arr).flatten.Perm arr := by
  intro depth
  induction depth with
  | zero =>
    intro arr
    cases arr with
    | nil => exact List.Perm.refl _
    | cons x xs => simp [leafBuckets]
  | succ d ih =>
    intro arr
    cases arr with
    | nil => exact List.Perm.refl _
    | cons x xs =>
      show (leafBuckets d _ ++ leafBuckets d _).flatten.Perm (x :: xs)
      rw [List.flatten_append]
      have h := (ih ((sortedByMaxRange (x :: xs)).take
          ((sortedByMaxRange (x :: xs)).length / 2))).append
        (ih ((sortedByMaxRange (x :: xs)).drop
          ((sortedByMaxRange (x :: xs)).length / 2)))
      rw [List.take_append_drop] at h
      exact h.trans (sortedByMaxRange_perm (x :: xs))

theorem getPixel_splitIntoBuckets_not_mem :
    ∀ (depth : ℕ) (arr : List PixelRecord) (img : ImageG) {i j : ℕ},
      (i, j) ∉ arr.map PixelRecord.coord →
      getPixel (splitIntoBuckets depth arr img) i j = getPixel img i j := by
  intro depth
  induction depth with
  | zero =>
    intro arr img i j h
    cases arr with
    | nil => rfl
    | cons x xs => exact getPixel_writeAll_not_mem h img
  | succ d ih =>
    intro arr img i j h
    cases arr with
    | nil => rfl
    | cons x xs =>
      have hsorted : (i, j) ∉ (sortedByMaxRange (x :: xs)).map PixelRecord.coord :=
        fun hmem => h (((sortedByMaxRange_perm (x :: xs)).map PixelRecord.coord).mem_iff.mp hmem)
      have htake : (i, j) ∉ ((sortedByMaxRange (x :: xs)).take
          ((sortedByMaxRange (x :: xs)).length / 2)).map PixelRecord.coord := by
        rw [List.map_take]
        exact fun hmem => hsorted (List.mem_of_mem_take hmem)
      have hdrop : (i, j) ∉ ((sortedByMaxRange (x :: xs)).drop
          ((sortedByMaxRange (x :: xs)).length / 2)).map PixelRecord.coord := by
        rw [List.map_drop]
        exact fun hmem => hsorted (List.mem_of_mem_drop hmem)
      show getPixel (splitIntoBuckets d _ (splitIntoBuckets d _ img)) i j = getPixel img i j
      rw [ih _ _ hdrop, ih _ _ htake]

theorem getPixel_splitIntoBuckets_mem :
    ∀ (depth : ℕ) (arr : List PixelRecord) (img : ImageG) {i j : ℕ},
      (arr.map PixelRecord.coord).Nodup →
      (i, j) ∈ arr.map PixelRecord.coord →
      ∃ B ∈ leafBuckets depth arr,
        getPixel (splitIntoBuckets depth arr img) i j
          = (getPixel img i j).map (fun _ => avgPixel B) := by
  intro depth
  induction depth with
  | zero =>
    intro arr img i j hnd hmem
    cases arr with
    | nil => simp at hmem
    | cons x xs =>
      refine ⟨x :: xs, by simp [leafBuckets], ?_⟩
      exact getPixel_writeAll_mem hmem img
  | succ d ih =>
    intro arr img i j hnd hmem
    cases arr with
    | nil => simp at hmem
    | cons x xs =>
      have hpermc : ((sortedByMaxRange (x :: xs)).map PixelRecord.coord).Perm
          ((x :: xs).map PixelRecord.coord) :=
        (sortedByMaxRange_perm (x :: xs)).map PixelRecord.coord
      have hndS : ((sortedByMaxRange (x :: xs)).map PixelRecord.coord).Nodup :=
        hpermc.nodup_iff.mpr hnd
      have hmemS : (i, j) ∈ (sortedByMaxRange (x :: xs)).map PixelRecord.coord :=
        hpermc.mem_iff.mpr hmem
      set sorted := sortedByMaxRange (x :: xs) with hsorted
      set m := sorted.length / 2 with hm
      have hsplitc : sorted.map PixelRecord.coord
          = (sorted.take m).map PixelRecord.coord ++ (sorted.drop m).map PixelRecord.coord := by
        rw [← List.map_append, List.take_append_drop]
      rw [hsplitc] at hndS hmemS
      rcases List.nodup_append.mp hndS with ⟨hndT, hndD, hdisj⟩
      show ∃ B ∈ leafBuckets d (sorted.take m) ++ leafBuckets d (sorted.drop m),
        getPixel (splitIntoBuckets d (sorted.drop m) (splitIntoBuckets d (sorted.take m) img)) i j
          = (getPixel img i j).map (fun _ => avgPixel B)
      by_cases hdropMem : (i, j) ∈ (sorted.drop m).map PixelRecord.coord
      · have hnotTake : (i, j) ∉ (sorted.take m).map PixelRecord.coord :=
          fun hT => hdisj hT hdropMem
        rcases ih (sorted.drop m) (splitIntoBuckets d (sorted.take m) img) hndD hdropMem
          with ⟨B, hB, hgp⟩
        refine ⟨B, List.mem_append_right _ hB, ?_⟩
        rw [hgp, getPixel_splitIntoBuckets_not_mem d _ img hnotTake]
      · have htakeMem : (i, j) ∈ (sorted.take m).map PixelRecord.coord := by
          rcases List.mem_append.mp hmemS with h | h
          · exact h
          · exact absurd h hdropMem
        rcases ih (sorted.take m) img hndT htakeMem with ⟨B, hB, hgp⟩
        refine ⟨B, List.mem_append_left _ hB, ?_⟩
        rw [getPixel_splitIntoBuckets_not_mem d _ _ hdropMem, hgp]

theorem getPixel_isSome_of_shapeEq {img1 img2 : ImageG} {i j : ℕ}
    (hs : shapeOf img1 = shapeOf img2) (h : (getPixel img1 i j).isSome) :
    (getPixel img2 i j).isSome := by
  unfold getPixel at h ⊢
  rcases Option.isSome_iff_exists.mp h with ⟨p, hp⟩
  rcases Option.bind_eq_some.mp hp with ⟨row1, hrow1, hp1⟩
  have hi1 : i < img1.length := (getElem?_isSome_iff_lt ..).mp (by rw [hrow1]; rfl)
  have hlen : img1.length = img2.length := by
    have := congrArg List.length hs
    simpa [shapeOf] using this
  have hi2 : i < img2.length := hlen ▸ hi1
  have hrows : row1.length = img2[i].length := by
    have h1 : (shapeOf img1)[i]? = some row1.length := by
      unfold shapeOf
      rw [List.getElem?_map, hrow1]
      rfl
    have h2 : (shapeOf img2)[i]? = some img2[i].length := by
      unfold shapeOf
      rw [List.getElem?_map, List.getElem?_eq_getElem hi2]
      rfl
    rw [hs, h2] at h1
    exact (Option.some.injEq .. ▸ h1).symm
  have hj1 : j < row1.length := (getElem?_isSome_iff_lt ..).mp (by rw [hp1]; rfl)
  rw [List.getElem?_eq_getElem hi2]
  simp only [Option.some_bind]
  exact (getElem?_isSome_iff_lt ..).mpr (hrows ▸ hj1)

theorem mem_flatten_getPixel {img : ImageG} {p : Pixel} (h : p ∈ img.flatten) :
    ∃ i j, getPixel img i j = some p := by
  rcases List.mem_flatten.mp h with ⟨row, hrow, hp⟩
  rcases List.mem_iff_getElem?.mp hrow with ⟨i, hi⟩
  rcases List.mem_iff_getElem?.mp hp with ⟨j, hj⟩
  exact ⟨i, j, by unfold getPixel; rw [hi]; simpa using hj⟩

theorem distinctColorCount_medianCutQuantize_le (img : ImageG) (depth : ℕ) :
    distinctColorCount (medianCutQuantize img depth) ≤ 2 ^ depth := by
  set out := medianCutQuantize img depth with hout
  set avgs := (leafBuckets depth (flattenImage img)).map avgPixel with havgs
  have hsub : ∀ p ∈ out.flatten, p ∈ avgs := by
    intro p hp
    rcases mem_flatten_getPixel hp with ⟨i, j, hgp⟩
    have hsome2 : (getPixel img i j).isSome :=
      getPixel_isSome_of_shapeEq (shape_medianCutQuantize img depth) (by rw [hgp]; rfl)
    rcases Option.isSome_iff_exists.mp hsome2 with ⟨q, hq⟩
    have hcov : (i, j) ∈ (flattenImage img).map PixelRecord.coord :=
      getPixel_coord_mem_flatten hq
    rcases getPixel_splitIntoBuckets_mem depth (flattenImage img) img
        (flattenImage_coord_nodup img) hcov with ⟨B, hB, hwrite⟩
    have : getPixel out i j = some (avgPixel B) := by
      rw [hout]
      unfold medianCutQuantize
      rw [hwrite, hq]
      rfl
    have hpB : p = avgPixel B := by
      rw [this] at hgp
      exact (Option.some.injEq .. ▸ hgp.symm)
    rw [hpB]
    exact List.mem_map_of_mem avgPixel hB
  have h1 : distinctColorCount out = out.flatten.toFinset.card :=
    (List.card_toFinset out.flatten).symm
  have h2 : out.flatten.toFinset ⊆ avgs.toFinset := by
    intro p hp
    exact List.mem_toFinset.mpr (hsub p (List.mem_toFinset.mp hp))
  calc distinctColorCount out
      = out.flatten.toFinset.card := h1
    _ ≤ avgs.toFinset.card := Finset.card_le_card h2
    _ ≤ avgs.length := List.toFinset_card_le avgs
    _ = (leafBuckets depth (flattenImage img)).length := List.length_map ..
    _ ≤ 2 ^ depth := leafBuckets_length_le ..

/-! ### Live buckets level by level -/

theorem splitOnce_flatten_perm (arr : List PixelRecord) :
    (splitOnce arr).flatten.Perm arr := by
  cases arr with
  | nil => simp [splitOnce]
  | cons x xs =>
    show ([(sortedByMaxRange (x :: xs)).take ((sortedByMaxRange (x :: xs)).length / 2),
      (sortedByMaxRange (x :: xs)).drop ((sortedByMaxRange (x :: xs)).length / 2)] :
        List (List PixelRecord)).flatten.Perm (x :: xs)
    have : ([(sortedByMaxRange (x :: xs)).take ((sortedByMaxRange (x :: xs)).length / 2),
      (sortedByMaxRange (x :: xs)).drop ((sortedByMaxRange (x :: xs)).length / 2)] :
        List (List PixelRecord)).flatten = sortedByMaxRange (x :: xs) := by
      simp [List.flatten, List.take_append_drop]
    rw [this]
    exact sortedByMaxRange_perm (x :: xs)

theorem flatten_map_splitOnce_perm (L : List (List PixelRecord)) :
    ((L.map splitOnce).flatten).flatten.Perm L.flatten := by
  induction L with
  | nil => exact List.Perm.refl _
  | cons a rest ih =>
    simp only [List.map_cons, List.flatten_cons, List.flatten_append]
    exact (splitOnce_flatten_perm a).append ih

theorem levelBuckets_flatten_perm (depth : ℕ) (arr : List PixelRecord) :
    ∀ k, (levelBuckets depth arr k).flatten.Perm arr := by
  intro k
  induction k with
  | zero => simp [levelBuckets]
  | succ k ih =>
    by_cases h : k < depth
    · show (if k < depth then ((levelBuckets depth arr k).map splitOnce).flatten
        else levelBuckets depth arr k).flatten.Perm arr
      rw [if_pos h]
      exact (flatten_map_splitOnce_perm _).trans ih
    · show (if k < depth then ((levelBuckets depth arr k).map splitOnce).flatten
        else levelBuckets depth arr k).flatten.Perm arr
      rw [if_neg h]
      exact ih

/-- C4: at every level `k` of the median-cut recursion started at any depth,
the live buckets partition the initial pixel working set: the bucket sizes sum
to the total pixel count, and the `(row, col)` coordinates across all live
buckets are pairwise distinct (no coordinate is in two buckets, none is lost). -/
theorem mediancut_partition_invariant (img : ImageG) (depth k : ℕ) :
    ((levelBuckets depth (flattenImage img) k).map List.length).sum
        = (img.map List.length).sum ∧
    ((levelBuckets depth (flattenImage img) k).flatten.map PixelRecord.coord).Nodup := by
  have hperm := levelBuckets_flatten_perm depth (flattenImage img) k
  constructor
  · rw [← List.length_flatten, hperm.length_eq, flattenImage_length]
  · exact ((hperm.map PixelRecord.coord).nodup_iff).mpr (flattenImage_coord_nodup img)

theorem aggregate_colors_median_cut (img : ImageG) (n : ℤ) (hne : n ≠ 0)
    (hnn : ¬ n < 0) :
    aggregate_colors img ("median_cut") n
      = AggOutcome.quantized (medianCutQuantize img (Nat.log2 n.toNat)) := by
  unfold aggregate_colors intLog2
  rw [if_neg (by decide), if_pos rfl, if_neg hne, if_neg hnn]

/-- C1: on the concrete 1×4 image with colors (0,0,0), (100,0,0), (50,0,0),
(200,0,0) and `target_colors = 2` (hence depth 1), median-cut returns the
image (25,0,0), (150,0,0), (25,0,0), (150,0,0) in original position order. -/
theorem mediancut_concrete_1x4_scenario :
    aggregate_colors [[⟨0, 0, 0⟩, ⟨100, 0, 0⟩, ⟨50, 0, 0⟩, ⟨200, 0, 0⟩]] "median_cut" 2
      = AggOutcome.quantized [[⟨25, 0, 0⟩, ⟨150, 0, 0⟩, ⟨25, 0, 0⟩, ⟨150, 0, 0⟩]] := by
  rw [aggregate_colors_median_cut _ 2 (by decide) (by decide)]
  have hlog : Nat.log2 (Int.toNat 2) = 1 := by simp [Nat.log2]
  rw [hlog]
  decide

/-- C2: for every input image and every `target_colors ≥ 1`, the facade
converts `target_colors` to the depth `d = floor(log2 target_colors)`
(characterized by `2 ^ d ≤ target_colors < 2 ^ (d + 1)`, so the achieved
palette is a power of two and can undershoot a non-power-of-two target) and
the quantized output contains at most `2 ^ d` distinct colors. -/
theorem mediancut_depth_conversion_color_bound (img : ImageG) (n : ℤ) (h : 1 ≤ n) :
    aggregate_colors img ("median_cut") n
        = AggOutcome.quantized (medianCutQuantize img (Nat.log2 n.toNat)) ∧
    2 ^ Nat.log2 n.toNat ≤ n.toNat ∧
    n.toNat < 2 ^ (Nat.log2 n.toNat + 1) ∧
    distinctColorCount (medianCutQuantize img (Nat.log2 n.toNat))
        ≤ 2 ^ Nat.log2 n.toNat := by
  have hne : n ≠ 0 := by omega
  have hnlt : ¬ n < 0 := by omega
  refine ⟨aggregate_colors_median_cut img n hne hnlt, ?_,
    Nat.lt_log2_self, distinctColorCount_medianCutQuantize_le ..⟩
  exact Nat.log2_self_le (by omega)

/-- Witness for C2 at `target_colors = 5` on a concrete 1×2 image. -/
theorem mediancut_depth_conversion_color_bound_witness :
    (1 : ℤ) ≤ 5 ∧
    (aggregate_colors [[⟨0, 0, 0⟩, ⟨9, 9, 9⟩]] "median_cut" 5
        = AggOutcome.quantized (medianCutQuantize [[⟨0, 0, 0⟩, ⟨9, 9, 9⟩]] (Nat.log2 (5 : ℤ).toNat)) ∧
      2 ^ Nat.log2 (5 : ℤ).toNat ≤ (5 : ℤ).toNat ∧
      (5 : ℤ).toNat < 2 ^ (Nat.log2 (5 : ℤ).toNat + 1) ∧
      distinctColorCount (medianCutQuantize [[⟨0, 0, 0⟩, ⟨9, 9, 9⟩]] (Nat.log2 (5 : ℤ).toNat))
          ≤ 2 ^ Nat.log2 (5 : ℤ).toNat) :=
  ⟨by decide, mediancut_depth_conversion_color_bound [[⟨0, 0, 0⟩, ⟨9, 9, 9⟩]] 5 (by decide)⟩

/-! ### Depth-0 behavior: the whole image becomes one averaged color -/

/-- The image with every cell of `img` replaced by the color `v`. -/
def constImage (img : ImageG) (v : Pixel) : ImageG :=
  img.map (fun row => row.map (fun _ => v))

/-- A record recolored to `v`, keeping its coordinate. -/
def recolor (v : Pixel) (rec : PixelRecord) : PixelRecord :=
  ⟨v.r, v.g, v.b, rec.row, rec.col⟩

theorem shape_constImage (img : ImageG) (v : Pixel) :
    shapeOf (constImage img v) = shapeOf img := by
  unfold shapeOf constImage
  rw [List.map_map]
  exact List.map_congr_left (fun row _ => List.length_map ..)

theorem getPixel_constImage (img : ImageG) (v : Pixel) (i j : ℕ) :
    getPixel (constImage img v) i j = (getPixel img i j).map (fun _ => v) := by
  unfold getPixel constImage
  rw [List.getElem?_map]
  cases img[i]? with
  | none => rfl
  | some row =>
    show (row.map (fun _ => v))[j]? = row[j]?.map (fun _ => v)
    exact List.getElem?_map ..

theorem image_ext {img1 img2 : ImageG} (hs : shapeOf img1 = shapeOf img2)
    (h : ∀ i j, getPixel img1 i j = getPixel img2 i j) : img1 = img2 := by
  have hlen : img1.length = img2.length := by
    have := congrArg List.length hs
    simpa [shapeOf] using this
  apply List.ext_getElem?
  intro i
  by_cases hi : i < img1.length
  · have hi2 : i < img2.length := hlen ▸ hi
    rw [List.getElem?_eq_getElem hi, List.getElem?_eq_getElem hi2]
    congr 1
    apply List.ext_getElem?
    intro j
    have h1 := h i j
    unfold getPixel at h1
    rw [List.getElem?_eq_getElem hi, List.getElem?_eq_getElem hi2] at h1
    simpa using h1
  · rw [List.getElem?_eq_none (Nat.le_of_not_lt hi),
      List.getElem?_eq_none (by omega)]

theorem writeAll_flatten_const (img : ImageG) (v : Pixel) :
    writeAll (flattenImage img) v img = constImage img v := by
  apply image_ext
  · rw [shape_writeAll, shape_constImage]
  · intro i j
    rw [getPixel_constImage]
    by_cases hmem : (i, j) ∈ (flattenImage img).map PixelRecord.coord
    · exact getPixel_writeAll_mem hmem img
    · rw [getPixel_writeAll_not_mem hmem img]
      cases hgp : getPixel img i j with
      | none => rfl
      | some p => exact absurd (getPixel_coord_mem_flatten hgp) hmem

theorem flattenRow_constRow (v : Pixel) (ri : ℕ) :
    ∀ (ci : ℕ) (ps : List Pixel),
      flattenRow ri ci (ps.map (fun _ => v)) = (flattenRow ri ci ps).map (recolor v)
  | _, [] => rfl
  | ci, p :: ps => by
    simp only [List.map_cons, flattenRow]
    exact congrArg _ (flattenRow_constRow v ri (ci + 1) ps)

theorem flatten_constImage (img : ImageG) (v : Pixel) :
    flattenImage (constImage img v) = (flattenImage img).map (recolor v) := by
  suffices h : ∀ ri rows, flattenRows ri (rows.map (fun row => row.map (fun _ => v)))
      = (flattenRows ri rows).map (recolor v) by
    exact h 0 img
  intro ri rows
  induction rows generalizing ri with
  | nil => rfl
  | cons row rest ih =>
    simp only [List.map_cons, flattenRows, List.map_append]
    rw [flattenRow_constRow, ih]

theorem avgPixel_recolor {l : List PixelRecord} (v : Pixel) (h : l ≠ []) :
    avgPixel (l.map (recolor v)) = v := by
  have hlen : 0 < l.length := List.length_pos.mpr h
  have hr : ∀ (f : PixelRecord → ℕ) (c : ℕ), (∀ rec, f (recolor v rec) = c) →
      ((l.map (recolor v)).map f).sum / (l.map (recolor v)).length = c := by
    intro f c hf
    rw [List.map_map, List.length_map]
    have hmap : List.map (f ∘ recolor v) l = List.map (fun _ => c) l :=
      List.map_congr_left (fun a _ => hf a)
    rw [hmap, List.map_const', List.sum_replicate, smul_eq_mul,
      Nat.mul_div_cancel_left c hlen]
  unfold avgPixel
  rw [hr (fun rec => rec.c0) v.r (fun rec => rfl),
    hr (fun rec => rec.c1) v.g (fun rec => rfl),
    hr (fun rec => rec.c2) v.b (fun rec => rfl)]

theorem constImage_idem (img : ImageG) (v : Pixel) :
    constImage (constImage img v) v = constImage img v := by
  simp [constImage, List.map_map, Function.comp]

theorem medianCutQuantize_zero_const {img : ImageG} (h : flattenImage img ≠ []) :
    medianCutQuantize img 0 = constImage img (avgPixel (flattenImage img)) := by
  unfold medianCutQuantize
  rcases hx : flattenImage img with _ | ⟨x, xs⟩
  · exact absurd hx h
  · show medianCutQuantizeHelper img (x :: xs) = _
    unfold medianCutQuantizeHelper
    rw [← hx]
    exact writeAll_flatten_const img _

/-- C5 counterexample: on the 1×3 image (0,150,0), (50,0,0), (200,0,0) at
depth 1, running median-cut again on its own output changes the image, so
median-cut is not idempotent at a fixed depth ≥ 1. -/
theorem mediancut_not_idempotent_counterexample :
    medianCutQuantize (medianCutQuantize [[⟨0, 150, 0⟩, ⟨50, 0, 0⟩, ⟨200, 0, 0⟩]] 1) 1
      ≠ medianCutQuantize [[⟨0, 150, 0⟩, ⟨50, 0, 0⟩, ⟨200, 0, 0⟩]] 1 := by
  decide

/-- C5 amended: median-cut is idempotent at depth 0 — re-running depth-0
quantization on an already depth-0-quantized image returns it unchanged
(each leaf is internally constant, and the mean of a constant integer bucket
is that constant).  At depth ≥ 1 idempotence fails, see the counterexample. -/
theorem mediancut_idempotent_depth0 (img : ImageG) :
    medianCutQuantize (medianCutQuantize img 0) 0 = medianCutQuantize img 0 := by
  by_cases harr : flattenImage img = []
  · have h1 : medianCutQuantize img 0 = img := by
      unfold medianCutQuantize
      rw [harr]
      rfl
    rw [h1]
    exact h1
  · have h1 := medianCutQuantize_zero_const harr
    set v := avgPixel (flattenImage img) with hv
    have h2 : flattenImage (constImage img v) = (flattenImage img).map (recolor v) :=
      flatten_constImage img v
    have h3 : avgPixel (flattenImage (constImage img v)) = v := by
      rw [h2]
      exact avgPixel_recolor v harr
    have h4 : flattenImage (constImage img v) ≠ [] := by
      rw [h2]
      intro hcontra
      exact harr (List.map_eq_nil_iff.mp hcontra)
    rw [h1, medianCutQuantize_zero_const h4, h3, constImage_idem]

/-! ### Error behavior of the facade -/

theorem intLog2_error_cases {n : ℤ} {e : PyError} (h : intLog2 n = .error e) :
    e = PyError.overflowError ∨ e = PyError.valueErrorNanToInt := by
  unfold intLog2 at h
  by_cases h0 : n = 0
  · rw [if_pos h0] at h
    injection h with h'
    exact Or.inl h'.symm
  · rw [if_neg h0] at h
    by_cases hneg : n < 0
    · rw [if_pos hneg] at h
      injection h with h'
      exact Or.inr h'.symm
    · rw [if_neg hneg] at h
      exact Except.noConfusion h

/-- C6 counterexample: calling the facade with `target_colors = 0` on the
median-cut path raises the `OverflowError` escaping from
`int(np.log2(0))`, not the `InvalidArgumentError` of the spec — no validation of
`target_colors < 1` exists in the code. -/
theorem target_colors_zero_error_counterexample :
    aggregate_colors [[⟨0, 0, 0⟩]] "median_cut" 0
        = AggOutcome.raises PyError.overflowError ∧
    PyError.overflowError ≠ PyError.invalidArgumentError := by
  exact ⟨by decide, by decide⟩

/-- C6 amended: for every `target_colors < 1` the median-cut call fails
synchronously, but with the numeric error escaping from the depth conversion
`int(np.log2(n_colors))` — `OverflowError` for 0 (`log2 0 = -inf`) and
`ValueError` for negatives (`log2` is NaN) — never a dedicated
`InvalidArgumentError`. -/
theorem target_colors_lt_one_conversion_error (img : ImageG) (n : ℤ) (h : n < 1) :
    aggregate_colors img ("median_cut") n
      = AggOutcome.raises
          (if n = 0 then PyError.overflowError else PyError.valueErrorNanToInt) := by
  unfold aggregate_colors intLog2
  rw [if_neg (by decide), if_pos rfl]
  by_cases h0 : n = 0
  · rw [if_pos h0, if_pos h0]
  · rw [if_neg h0, if_pos (by omega), if_neg h0]

/-- Witness for C6 amended at `target_colors = 0`. -/
theorem target_colors_lt_one_conversion_error_witness :
    (0 : ℤ) < 1 ∧
    aggregate_colors [[⟨0, 0, 0⟩]] "median_cut" 0
      = AggOutcome.raises
          (if (0 : ℤ) = 0 then PyError.overflowError else PyError.valueErrorNanToInt) :=
  ⟨by decide, target_colors_lt_one_conversion_error [[⟨0, 0, 0⟩]] 0 (by decide)⟩

/-- C7 counterexample: the facade rejects the method name `"cluster"` with
a ValueError naming the valid set (kmeans and median_cut), while accepting
`"kmeans"` — the accepted set differs from the pair median_cut, cluster
that the spec names. -/
theorem cluster_method_rejected_counterexample :
    aggregate_colors [[⟨0, 0, 0⟩]] "cluster" 8
        = AggOutcome.raises (PyError.valueErrorInvalidMethod ["kmeans", "median_cut"]) ∧
    aggregate_colors [[⟨0, 0, 0⟩]] "kmeans" 8 = AggOutcome.delegatesToKMeans 8 := by
  exact ⟨by decide, by decide⟩

/-- C7 amended: the facade accepts exactly the method names `"kmeans"` and
`"median_cut"`; a call with any other method name — and only such a call —
fails with a ValueError naming the valid set (kmeans and median_cut). -/
theorem aggregate_method_dispatch_iff (img : ImageG) (method : String) (n : ℤ) :
    aggregate_colors img method n
        = AggOutcome.raises (PyError.valueErrorInvalidMethod ["kmeans", "median_cut"])
      ↔ method ≠ "kmeans" ∧ method ≠ "median_cut" := by
  unfold aggregate_colors
  by_cases h1 : method = "kmeans"
  · rw [if_pos h1]
    simp [h1]
  · rw [if_neg h1]
    by_cases h2 : method = "median_cut"
    · rw [if_pos h2]
      rcases hE : intLog2 n with e | d
      · rcases intLog2_error_cases hE with rfl | rfl <;> simp [h2]
      · simp [h2]
    · rw [if_neg h2]
      simp [h1, h2]

/-! ### Output values: floor of the exact bucket mean -/

theorem avgChannel_floor (arr : List PixelRecord) (ch : ℕ) :
    (arr.map (fun rec => rec.chan ch)).sum / arr.length
      = ⌊specExactChannelMean arr ch⌋₊ := by
  unfold specExactChannelMean
  rw [Nat.floor_div_nat, Nat.floor_natCast]

theorem avgPixel_eq_floor_mean (arr : List PixelRecord) :
    avgPixel arr = ⟨⌊specExactChannelMean arr 0⌋₊, ⌊specExactChannelMean arr 1⌋₊,
      ⌊specExactChannelMean arr 2⌋₊⟩ := by
  unfold avgPixel
  rw [← avgChannel_floor arr 0, ← avgChannel_floor arr 1, ← avgChannel_floor arr 2]
  rfl

/-- C8 counterexample: on the 1×2 image (0,0,0), (1,0,0) at depth 0, the
exact bucket average of channel 0 is 1/2, but the stored output pixel holds 0:
the computed mean is truncated by the store into the integer-dtype buffer, so
the output does not hold the exact (possibly non-integer) average. -/
theorem avg_truncation_counterexample :
    getPixel (medianCutQuantize [[⟨0, 0, 0⟩, ⟨1, 0, 0⟩]] 0) 0 0 = some ⟨0, 0, 0⟩ ∧
    specExactChannelMean (flattenImage [[⟨0, 0, 0⟩, ⟨1, 0, 0⟩]]) 0 = 1 / 2 ∧
    ((0 : ℚ) ≠ 1 / 2) := by
  refine ⟨by decide, ?_, by norm_num⟩
  have h1 : (flattenImage [[⟨0, 0, 0⟩, ⟨1, 0, 0⟩]]).map
      (fun rec => rec.chan 0) = [0, 1] := by decide
  have h2 : (flattenImage [[⟨0, 0, 0⟩, ⟨1, 0, 0⟩]]).length = 2 := by decide
  unfold specExactChannelMean
  rw [h1, h2]
  have h3 : ([0, 1] : List ℕ).sum = 1 := rfl
  rw [h3]
  norm_num

/-- C8 amended: every pixel of a median-cut output image holds the exact
per-channel mean of its leaf bucket truncated to an integer (the floor, for
these nonnegative values) by the store into the input-dtype buffer; in
particular integral input always yields integral output, never a
non-integer average. -/
theorem output_pixel_floor_of_exact_mean (img : ImageG) (depth i j : ℕ)
    (p : Pixel) (h : getPixel (medianCutQuantize img depth) i j = some p) :
    ∃ B ∈ leafBuckets depth (flattenImage img),
      p = ⟨⌊specExactChannelMean B 0⌋₊, ⌊specExactChannelMean B 1⌋₊,
        ⌊specExactChannelMean B 2⌋₊⟩ := by
  have hsome : (getPixel img i j).isSome :=
    getPixel_isSome_of_shapeEq (shape_medianCutQuantize img depth) (by rw [h]; rfl)
  rcases Option.isSome_iff_exists.mp hsome with ⟨q, hq⟩
  rcases getPixel_splitIntoBuckets_mem depth (flattenImage img) img
      (flattenImage_coord_nodup img) (getPixel_coord_mem_flatten hq) with ⟨B, hB, hwrite⟩
  refine ⟨B, hB, ?_⟩
  have hout : getPixel (medianCutQuantize img depth) i j = some (avgPixel B) := by
    unfold medianCutQuantize
    rw [hwrite, hq]
    rfl
  rw [hout] at h
  have hp : p = avgPixel B := (Option.some.injEq .. ▸ h.symm)
  rw [hp, avgPixel_eq_floor_mean]

/-- Witness for C8 amended on the 1×2 image (0,0,0), (1,0,0) at depth 0. -/
theorem output_pixel_floor_of_exact_mean_witness :
    getPixel (medianCutQuantize [[⟨0, 0, 0⟩, ⟨1, 0, 0⟩]] 0) 0 0 = some ⟨0, 0, 0⟩ ∧
    (∃ B ∈ leafBuckets 0 (flattenImage [[⟨0, 0, 0⟩, ⟨1, 0, 0⟩]]),
      (⟨0, 0, 0⟩ : Pixel) = ⟨⌊specExactChannelMean B 0⌋₊, ⌊specExactChannelMean B 1⌋₊,
        ⌊specExactChannelMean B 2⌋₊⟩) :=
  ⟨by decide, output_pixel_floor_of_exact_mean [[⟨0, 0, 0⟩, ⟨1, 0, 0⟩]] 0 0 0
    ⟨0, 0, 0⟩ (by decide)⟩

/-! ### Shape preservation of the cluster branch -/

theorem shape_kmeansClustering (labels : ℕ → ℕ) (centers : ℕ → Pixel) (k : ℕ)
    (img : ImageG) (hrect : ∀ row ∈ img, row.length = (img.headD []).length) :
    shapeOf (kmeansClustering labels centers k img) = shapeOf img := by
  set w := (img.headD []).length with hw
  have hmap : List.map List.length img = List.replicate img.length w := by
    refine List.eq_replicate_iff.mpr ⟨List.length_map .., ?_⟩
    intro b hb
    rcases List.mem_map.mp hb with ⟨row, hrow, rfl⟩
    exact hrect row hrow
  have hflatlen : img.flatten.length = img.length * w := by
    rw [List.length_flatten, hmap, List.sum_replicate, smul_eq_mul]
  simp only [kmeansClustering]
  unfold shapeOf
  rw [List.map_map, hmap]
  have hentry : ∀ i ∈ List.range img.length,
      (List.length ∘ fun i =>
        (((List.range img.flatten.length).map (fun idx =>
          if labels idx < k then centers (labels idx) else ⟨0, 0, 0⟩)).drop (i * w)).take w) i
        = (fun _ => w) i := by
    intro i hi
    have hi' : i < img.length := List.mem_range.mp hi
    show ((((List.range img.flatten.length).map _).drop (i * w)).take w).length = w
    rw [List.length_take, List.length_drop, List.length_map, List.length_range, hflatlen]
    have hmul : (i + 1) * w ≤ img.length * w := Nat.mul_le_mul_right w hi'
    rw [Nat.succ_mul] at hmul
    exact min_eq_left (by omega)
  rw [List.map_congr_left hentry, List.map_const', List.length_range]

/-- C9: for every rectangular H×W×3 input image, valid `target_colors ≥ 1`
on the median-cut path returns a quantized image without error, and both the
median-cut output and the cluster-branch output have exactly the input
shape. -/
theorem quantize_shape_preserved (img : ImageG) (n : ℤ) (hn : 1 ≤ n)
    (labels : ℕ → ℕ) (centers : ℕ → Pixel) (k : ℕ)
    (hrect : ∀ row ∈ img, row.length = (img.headD []).length) :
    aggregate_colors img ("median_cut") n
        = AggOutcome.quantized (medianCutQuantize img (Nat.log2 n.toNat)) ∧
    shapeOf (medianCutQuantize img (Nat.log2 n.toNat)) = shapeOf img ∧
    shapeOf (kmeansClustering labels centers k img) = shapeOf img :=
  ⟨aggregate_colors_median_cut img n (by omega) (by omega),
   shape_medianCutQuantize ..,
   shape_kmeansClustering labels centers k img hrect⟩

/-- Witness for C9 on a concrete 1×1 image with `target_colors = 1`, `k = 1`. -/
theorem quantize_shape_preserved_witness :
    ((1 : ℤ) ≤ 1 ∧ ∀ row ∈ ([[⟨1, 2, 3⟩]] : ImageG),
        row.length = (([[⟨1, 2, 3⟩]] : ImageG).headD []).length) ∧
    (aggregate_colors [[⟨1, 2, 3⟩]] "median_cut" 1
        = AggOutcome.quantized (medianCutQuantize [[⟨1, 2, 3⟩]] (Nat.log2 (1 : ℤ).toNat)) ∧
      shapeOf (medianCutQuantize [[⟨1, 2, 3⟩]] (Nat.log2 (1 : ℤ).toNat))
          = shapeOf [[⟨1, 2, 3⟩]] ∧
      shapeOf (kmeansClustering (fun _ => 0) (fun _ => ⟨0, 0, 0⟩) 1 [[⟨1, 2, 3⟩]])
          = shapeOf [[⟨1, 2, 3⟩]]) :=
  ⟨⟨by decide, by decide⟩,
   quantize_shape_preserved [[⟨1, 2, 3⟩]] 1 (by decide)
     (fun _ => 0) (fun _ => ⟨0, 0, 0⟩) 1 (by decide)⟩

/-! ### Heap model: the input buffer is never written -/

/-- A heap of image buffers; addresses are indices.  Buffer `self.image` and
the copy `sample_img` made by `_median_cut_quantize` live at distinct addresses. -/
abbrev Heap := List ImageG

/-- Dereference of a buffer address. -/
def heapGet (h : Heap) (a : ℕ) : ImageG := h.getD a []

/-- Recursion `_split_into_buckets` with the mutated buffer held on the heap at address
`addr`: every write of the recursion targets that one buffer. -/
def splitIntoBucketsH : ℕ → List PixelRecord → Heap → ℕ → Heap
  | _, [], h, _ => h
  | 0, x :: xs, h, addr => h.set addr (medianCutQuantizeHelper (heapGet h addr) (x :: xs))
  | depth + 1, x :: xs, h, addr =>
    let sorted := sortedByMaxRange (x :: xs)
    let m := sorted.length / 2
    splitIntoBucketsH depth (sorted.drop m) (splitIntoBucketsH depth (sorted.take m) h addr) addr

/-- Entry point `_median_cut_quantize(depth)` against the heap:
`sample_img = self.image.copy()` allocates a fresh buffer at a fresh address,
the bucket recursion mutates only that buffer, and its address is returned. -/
def medianCutQuantizeH (h : Heap) (selfAddr : ℕ) (depth : ℕ) : Heap × ℕ :=
  let sampleAddr := h.length
  let h1 := h ++ [heapGet h selfAddr]
  (splitIntoBucketsH depth (flattenImage (heapGet h selfAddr)) h1 sampleAddr, sampleAddr)

theorem heapGet_set_ne {h : Heap} {a a' : ℕ} {img : ImageG} (hne : a' ≠ a) :
    heapGet (h.set a img) a' = heapGet h a' := by
  unfold heapGet
  rw [List.getD_eq_getElem?_getD, List.getD_eq_getElem?_getD,
    List.getElem?_set_ne (fun hx => hne hx.symm)]

theorem heapGet_set_self {h : Heap} {a : ℕ} {img : ImageG} (hlt : a < h.length) :
    heapGet (h.set a img) a = img := by
  unfold heapGet
  rw [List.getD_eq_getElem?_getD, List.getElem?_set_self hlt]
  rfl

theorem length_splitIntoBucketsH :
    ∀ (depth : ℕ) (arr : List PixelRecord) (h : Heap) (addr : ℕ),
      (splitIntoBucketsH depth arr h addr).length = h.length := by
  intro depth
  induction depth with
  | zero =>
    intro arr h addr
    cases arr with
    | nil => rfl
    | cons x xs => exact List.length_set ..
  | succ d ih =>
    intro arr h addr
    cases arr with
    | nil => rfl
    | cons x xs =>
      show (splitIntoBucketsH d _ (splitIntoBucketsH d _ h addr) addr).length = h.length
      rw [ih, ih]

theorem heapGet_splitIntoBucketsH_ne :
    ∀ (depth : ℕ) (arr : List PixelRecord) (h : Heap) (addr a' : ℕ), a' ≠ addr →
      heapGet (splitIntoBucketsH depth arr h addr) a' = heapGet h a' := by
  intro depth
  induction depth with
  | zero =>
    intro arr h addr a' hne
    cases arr with
    | nil => rfl
    | cons x xs => exact heapGet_set_ne hne
  | succ d ih =>
    intro arr h addr a' hne
    cases arr with
    | nil => rfl
    | cons x xs =>
      show heapGet (splitIntoBucketsH d _ (splitIntoBucketsH d _ h addr) addr) a'
        = heapGet h a'
      rw [ih _ _ _ _ hne, ih _ _ _ _ hne]

theorem heapGet_splitIntoBucketsH_self :
    ∀ (depth : ℕ) (arr : List PixelRecord) (h : Heap) (addr : ℕ), addr < h.length →
      heapGet (splitIntoBucketsH depth arr h addr) addr
        = splitIntoBuckets depth arr (heapGet h addr) := by
  intro depth
  induction depth with
  | zero =>
    intro arr h addr hlt
    cases arr with
    | nil => rfl
    | cons x xs => exact heapGet_set_self hlt
  | succ d ih =>
    intro arr h addr hlt
    cases arr with
    | nil => rfl
    | cons x xs =>
      have hlt1 : addr < (splitIntoBucketsH d ((sortedByMaxRange (x :: xs)).take
          ((sortedByMaxRange (x :: xs)).length / 2)) h addr).length := by
        rw [length_splitIntoBucketsH]
        exact hlt
      show heapGet (splitIntoBucketsH d _ (splitIntoBucketsH d _ h addr) addr) addr
        = splitIntoBuckets d _ (splitIntoBuckets d _ (heapGet h addr))
      rw [ih _ _ _ hlt1, ih _ _ _ hlt]

/-- C10: median-cut does not mutate the stored input image.  For any heap of
buffers with `self.image` at address `selfAddr`, the call copies the image to
a fresh buffer at a distinct address, every write of the recursion lands in
that copy, the stored input is bitwise unchanged afterwards, and the returned
buffer holds exactly the pure-model quantization of the input. -/
theorem mediancut_input_not_mutated (h : Heap) (selfAddr depth : ℕ)
    (hlt : selfAddr < h.length) :
    heapGet (medianCutQuantizeH h selfAddr depth).1 selfAddr = heapGet h selfAddr ∧
    (medianCutQuantizeH h selfAddr depth).2 ≠ selfAddr ∧
    heapGet (medianCutQuantizeH h selfAddr depth).1 (medianCutQuantizeH h selfAddr depth).2
      = medianCutQuantize (heapGet h selfAddr) depth := by
  have hne : selfAddr ≠ h.length := by omega
  have hget1 : heapGet (h ++ [heapGet h selfAddr]) selfAddr = heapGet h selfAddr := by
    unfold heapGet
    rw [List.getD_eq_getElem?_getD, List.getD_eq_getElem?_getD,
      List.getElem?_append, if_pos hlt]
  have hget2 : heapGet (h ++ [heapGet h selfAddr]) h.length = heapGet h selfAddr := by
    unfold heapGet
    rw [List.getD_eq_getElem?_getD, List.getElem?_concat_length]
    rfl
  have hlen1 : h.length < (h ++ [heapGet h selfAddr]).length := by
    simp
  refine ⟨?_, by simpa using hne.symm, ?_⟩
  · show heapGet (splitIntoBucketsH depth _ (h ++ [heapGet h selfAddr]) h.length) selfAddr
      = heapGet h selfAddr
    rw [heapGet_splitIntoBucketsH_ne depth _ _ _ _ hne, hget1]
  · show heapGet (splitIntoBucketsH depth _ (h ++ [heapGet h selfAddr]) h.length) h.length
      = medianCutQuantize (heapGet h selfAddr) depth
    rw [heapGet_splitIntoBucketsH_self depth _ _ _ hlen1, hget2]
    rfl

/-- Witness for C10 on a one-buffer heap holding a 1×1 image, depth 0. -/
theorem mediancut_input_not_mutated_witness :
    0 < ([[[⟨5, 5, 5⟩]]] : Heap).length ∧
    (heapGet (medianCutQuantizeH [[[⟨5, 5, 5⟩]]] 0 0).1 0 = heapGet [[[⟨5, 5, 5⟩]]] 0 ∧
     (medianCutQuantizeH [[[⟨5, 5, 5⟩]]] 0 0).2 ≠ 0 ∧
     heapGet (medianCutQuantizeH [[[⟨5, 5, 5⟩]]] 0 0).1 (medianCutQuantizeH [[[⟨5, 5, 5⟩]]] 0 0).2
       = medianCutQuantize (heapGet [[[⟨5, 5, 5⟩]]] 0) 0) :=
  ⟨by decide, mediancut_input_not_mutated [[[⟨5, 5, 5⟩]]] 0 0 (by decide)⟩
